import Mathlib

set_option maxRecDepth 40000

/-!
Shallow embedding of the MP4 NachOS filesystem core (src/filesys/filehdr.cc and
src/filesys/directory.cc), together with theorems settling the frozen claims.

Machine integers are modelled as `Nat`; C strings are modelled as the list of
bytes preceding the terminating NUL; the disk is modelled as a total map from
sector numbers to sector contents.  The layout constants `SectorSize`,
`SectorNumPerList`, `NumSectors` and `FileNameMaxLen` live in headers that are
not part of the sources, so (following the spec, which keeps them abstract as
S, L, N and NAME_MAX) they are carried in a `Config` record.
-/

namespace FS

/-- Modelled from the spec: the layout constants S (sector size in bytes),
L (sector numbers per index sector), N (total sectors on the disk) and
NAME_MAX (`FileNameMaxLen`), which are defined in headers missing from src/. -/
structure Config where
  S : Nat
  L : Nat
  N : Nat
  nameMax : Nat

/-- Modelled from the spec: `divRoundUp(n, s) = ceil(n / s)`, the utility.h
macro `(((n) + (s) - 1) / (s))` used by `FileHeader::Allocate`. -/
def divRoundUp (n s : Nat) : Nat := (n + s - 1) / s

/-- Modelled from the spec: the external free-sector bitmap is a persistent
set over the disk's sectors; a list entry `true` means the sector is in use.
`NumClear` counts the clear (free) bits. -/
def numClear (B : List Bool) : Nat := B.count false

/-- Modelled from the spec: `FindAndSet` returns a clear bit's index after
setting it (the lowest clear bit, as in the Bitmap scan), or fails when no
bit is clear (the C function returns -1, here `none`). -/
def findAndSet : List Bool → Option (Nat × List Bool)
  | [] => none
  | b :: rest =>
    if b then
      match findAndSet rest with
      | none => none
      | some (k, r') => some (k + 1, b :: r')
    else some (0, true :: rest)

/-- In-memory `FileHeader` record: `numBytes`, `numSectors`, `numLists` and
the `dataSectorLists` array of index-sector numbers (filehdr.h fields). -/
structure FileHeader where
  numBytes : Nat
  numSectors : Nat
  numLists : Nat
  dataSectorLists : List Nat
deriving DecidableEq

/-- The disk as seen by the file-header module: each sector holds a list of
sector numbers (an index sector's content). -/
def IdxDisk := Nat → List Nat

/-- `kernel->synchDisk->WriteSector(s, v)` on the index-sector disk. -/
def writeIdx (d : IdxDisk) (s : Nat) (v : List Nat) : IdxDisk :=
  fun x => if x = s then v else d x

/-- The inner loop of `FileHeader::Allocate`: `cnt` successive
`freeMap->FindAndSet()` calls filling the buffer in allocation order;
`none` models a failed `ASSERT(buffer[j] >= 0)`. -/
def allocSeq : List Bool → Nat → Option (List Nat × List Bool)
  | B, 0 => some ([], B)
  | B, c + 1 =>
    match findAndSet B with
    | none => none
    | some (s, B1) =>
      match allocSeq B1 c with
      | none => none
      | some (ss, B2) => some (s :: ss, B2)

/-- The outer loop of `FileHeader::Allocate` (filehdr.cc lines 80-99) over the
remaining list count: reserves one sector for `dataSectorLists[i]`, computes
`lastSectorNum` from the *global* constant `NumSectors` (`cfg.N`) exactly as
line 86 does, reserves `lastSectorNum - nowNumSectors` data sectors into a
zeroed `L`-slot buffer, and persists the buffer. `none` models an `ASSERT`
failure. -/
def allocLoop (cfg : Config) : Nat → Nat → List Bool → IdxDisk →
    Option (List Nat × List Bool × IdxDisk)
  | 0, _, B, d => some ([], B, d)
  | k + 1, now, B, d =>
    match findAndSet B with
    | none => none
    | some (ls, B1) =>
      let last := min (now + cfg.L) cfg.N
      let cnt := last - now
      match allocSeq B1 cnt with
      | none => none
      | some (ss, B2) =>
        let d1 := writeIdx d ls (ss ++ List.replicate (cfg.L - cnt) 0)
        match allocLoop cfg k (now + cfg.L) B2 d1 with
        | none => none
        | some (rest, B3, d2) => some (ls :: rest, B3, d2)

/-- Outcome of `FileHeader::Allocate`: normal return `true` (`ok`), normal
return `FALSE` (`fail`, carrying the mutated header and the untouched bitmap
and disk), or a tripped `ASSERT` (`assertFail`). -/
inductive AllocOutcome where
  | ok (hdr : FileHeader) (bmp : List Bool) (dsk : IdxDisk)
  | fail (hdr : FileHeader) (bmp : List Bool) (dsk : IdxDisk)
  | assertFail

def AllocOutcome.isOk : AllocOutcome → Bool
  | .ok _ _ _ => true
  | _ => false

def AllocOutcome.isFail : AllocOutcome → Bool
  | .fail _ _ _ => true
  | _ => false

def AllocOutcome.hdrD (dflt : FileHeader) : AllocOutcome → FileHeader
  | .ok h _ _ => h
  | .fail h _ _ => h
  | .assertFail => dflt

def AllocOutcome.bmpD (dflt : List Bool) : AllocOutcome → List Bool
  | .ok _ b _ => b
  | .fail _ b _ => b
  | .assertFail => dflt

def AllocOutcome.dskD (dflt : IdxDisk) : AllocOutcome → IdxDisk
  | .ok _ _ d => d
  | .fail _ _ d => d
  | .assertFail => dflt

/-- `FileHeader::Allocate` (filehdr.cc lines 71-101): sets `numBytes`,
`numSectors`, `numLists`; returns `FALSE` when `freeMap->NumClear() <
numSectors`; otherwise runs the allocation loop. -/
def codeAllocate (cfg : Config) (hdr : FileHeader) (B : List Bool)
    (d : IdxDisk) (fileSize : Nat) : AllocOutcome :=
  let nS := divRoundUp fileSize cfg.S
  let nL := divRoundUp nS cfg.L
  if numClear B < nS then
    .fail { numBytes := fileSize, numSectors := nS, numLists := nL,
            dataSectorLists := hdr.dataSectorLists } B d
  else
    match allocLoop cfg nL 0 B d with
    | none => .assertFail
    | some (lists, B', d') =>
      .ok { numBytes := fileSize, numSectors := nS, numLists := nL,
            dataSectorLists := lists ++ hdr.dataSectorLists.drop nL } B' d'

/-- One pass of clearing: `ASSERT(freeMap->Test(x)); freeMap->Clear(x);` for
each listed sector number, `none` when the assert trips (`Test` is false). -/
def clearSeq : List Bool → List Nat → Option (List Bool)
  | B, [] => some B
  | B, x :: xs => if B.getD x false then clearSeq (B.set x false) xs else none

/-- The loop of `FileHeader::Deallocate` (filehdr.cc lines 113-127), translated
faithfully from the source: the buffer is never initialized from the index
sector (`ReadSector` is never called), so the sector numbers whose bits get
cleared are the uninitialized heap contents, modelled by `g i j`; the inner
bound is `lastSectorNum` itself (not `lastSectorNum - nowNumSectors`), with
`lastSectorNum = min(nowNumSectors + L, numSectors)`; and the bit of
`dataSectorLists[i]` is never cleared. -/
def deallocLoop (cfg : Config) (nS : Nat) (g : Nat → Nat → Nat) :
    Nat → Nat → Nat → List Bool → Option (List Bool)
  | 0, _, _, B => some B
  | k + 1, i, now, B =>
    let last := min (now + cfg.L) nS
    match clearSeq B ((List.range last).map (g i)) with
    | none => none
    | some B1 => deallocLoop cfg nS g k (i + 1) (now + cfg.L) B1

/-- `FileHeader::Deallocate` (filehdr.cc lines 110-128). -/
def codeDeallocate (cfg : Config) (hdr : FileHeader) (B : List Bool)
    (g : Nat → Nat → Nat) : Option (List Bool) :=
  deallocLoop cfg hdr.numSectors g hdr.numLists 0 0 B

/-- `FileHeader::ByteToSector` (filehdr.cc lines 182-196): computes
`sectorIdx = offset / S`, `listIdx = sectorIdx / L`,
`idxInList = sectorIdx % L`, reads the index sector at
`dataSectorLists[listIdx]` and returns its slot `idxInList`. -/
def ByteToSector (cfg : Config) (d : IdxDisk) (hdr : FileHeader)
    (offset : Nat) : Nat :=
  let sectorIdx := offset / cfg.S
  let listIdx := sectorIdx / cfg.L
  let idxInList := sectorIdx % cfg.L
  (d (hdr.dataSectorLists.getD listIdx 0)).getD idxInList 0

/-- A `DirectoryEntry` (directory.h): `inUse` flag, the stored name as the
byte list before the terminating NUL, the header sector and the type tag. -/
structure DirEntry where
  inUse : Bool
  name : List Nat
  sector : Nat
  type : Nat
deriving DecidableEq

/-- A freshly constructed (memset-zeroed) directory slot. -/
def dfltEntry : DirEntry := ⟨false, [], 0, 0⟩

/-- Default used for an out-of-bounds table read (undefined behaviour in the
source); every theorem's hypotheses keep accesses in bounds. -/
def oobEntry : DirEntry := ⟨true, [], 0, 0⟩

/-- The disk as seen by the directory module: each sector holds the directory
table reachable through the file header stored there (`OpenFile(sector)`
followed by `FetchFrom`). -/
def Dsk := Nat → List DirEntry

/-- `WriteBack` of a directory table through the open file rooted at `s`. -/
def writeDir (d : Dsk) (s : Nat) (t : List DirEntry) : Dsk :=
  fun x => if x = s then t else d x

/-- The byte value of the path separator, ASCII slash. -/
def slashB : Nat := 47

/-- The scan of `Directory::FindIndex` (directory.cc lines 96-101): first
index whose entry is in use and whose stored name equals the query under
`strncmp(..., FileNameMaxLen)`, i.e. on the first `nameMax` bytes. -/
def findIndexAux (nameMax : Nat) (q : List Nat) : List DirEntry → Option Nat
  | [] => none
  | e :: rest =>
    if e.inUse && (e.name.take nameMax == q.take nameMax) then some 0
    else (findIndexAux nameMax q rest).map (· + 1)

/-- `Directory::FindIndex` (directory.cc lines 93-103). -/
def FindIndex (cfg : Config) (table : List DirEntry) (q : List Nat) :
    Option Nat :=
  findIndexAux cfg.nameMax q table

/-- `Directory::Find` (directory.cc lines 114-148) with explicit fuel: skips
the leading byte (`name++`), collects `localName` up to the next slash, looks
it up, and either returns the entry's sector or recurses into the directory
fetched from that sector.  The fuel, set to the path length by `Find`, bounds
the recursion depth exactly as the path length bounds the C recursion. -/
def findFuel (cfg : Config) (disk : Dsk) :
    Nat → List DirEntry → List Nat → Option Nat
  | 0, _, _ => none
  | fuel + 1, table, path =>
    let p := path.tail
    let localName := p.takeWhile (fun b => b != slashB)
    let rest := p.dropWhile (fun b => b != slashB)
    match findIndexAux cfg.nameMax localName table with
    | none => none
    | some i =>
      if rest.isEmpty then some ((table.getD i dfltEntry).sector)
      else findFuel cfg disk fuel (disk ((table.getD i dfltEntry).sector)) rest

/-- `Directory::Find` (directory.cc lines 114-148). -/
def Find (cfg : Config) (disk : Dsk) (table : List DirEntry)
    (path : List Nat) : Option Nat :=
  findFuel cfg disk path.length table path

/-- The backwards scan of directory.cc lines 170-175 / 234-239: index of the
last slash in the path (`none` when there is no slash, in which case the C
variable `slash` stays uninitialized and the source behaviour is undefined). -/
def lastSlashIdx : List Nat → Option Nat
  | [] => none
  | a :: rest =>
    match lastSlashIdx rest with
    | some k => some (k + 1)
    | none => if a = slashB then some 0 else none

/-- The bounded first-free-slot scan `for (i = 0; i < tableSize; i++)
if (!table[i].inUse)` of `Directory::Add`; the bound is the *calling*
directory's `tableSize` even when the scanned table is the parent's
(directory.cc line 190).  Out-of-bounds reads yield `oobEntry`. -/
def firstFreeBnd : Nat → List DirEntry → Option Nat
  | 0, _ => none
  | n + 1, t =>
    if (t.headD oobEntry).inUse then (firstFreeBnd n t.tail).map (· + 1)
    else some 0

/-- Outcome of `Directory::Add` / `Directory::Remove`: a normal return with
the resulting boolean, this directory's table and the disk, or a crash
(`OpenFile` on sector -1, whose `ReadSector` asserts; or the undefined read
of the uninitialized `slash`). -/
inductive DirOutcome where
  | ok (ret : Bool) (table : List DirEntry) (disk : Dsk)
  | crash

def DirOutcome.ret : DirOutcome → Option Bool
  | .ok b _ _ => some b
  | .crash => none

def DirOutcome.tbl (dflt : List DirEntry) : DirOutcome → List DirEntry
  | .ok _ t _ => t
  | .crash => dflt

def DirOutcome.dsk (dflt : Dsk) : DirOutcome → Dsk
  | .ok _ _ d => d
  | .crash => dflt

/-- `Directory::Add` (directory.cc lines 161-215): fails when `Find(name)`
resolves; splits the path at the last slash into `Path` and `File` (the
`File[9]` buffer is modelled as the full leaf byte list; the `strncpy` at
insertion truncates it to `nameMax` bytes); if `Path[0] != 0` (last slash at
a positive index) inserts into the parent directory loaded from
`Find(Path)`'s sector and persists, else inserts into this table. -/
def Directory.Add (cfg : Config) (disk : Dsk) (table : List DirEntry)
    (name : List Nat) (newSector : Nat) (inType : Nat) : DirOutcome :=
  if (Find cfg disk table name).isSome then .ok false table disk
  else
    match lastSlashIdx name with
    | none => .crash
    | some slash =>
      let file := name.drop (slash + 1)
      let entry : DirEntry :=
        ⟨true, file.take cfg.nameMax, newSector, inType⟩
      if 0 < slash ∧ name.getD 0 0 ≠ 0 then
        match Find cfg disk table (name.take slash) with
        | none => .crash
        | some sec =>
          let nextTable := disk sec
          match firstFreeBnd table.length nextTable with
          | none => .ok false table disk
          | some i => .ok true table (writeDir disk sec (nextTable.set i entry))
      else
        match firstFreeBnd table.length table with
        | none => .ok false table disk
        | some i => .ok true (table.set i entry) disk

/-- `Directory::Remove` (directory.cc lines 225-270): fails when `Find(name)`
does not resolve; splits the path at the last slash; in the nested branch
locates the leaf in the parent's table by `FindIndex(File)`, clears `inUse`
and persists; in the top-level branch the source passes the *whole* path
(`name`, with its leading slash) to `FindIndex`, not the leaf. -/
def Directory.Remove (cfg : Config) (disk : Dsk) (table : List DirEntry)
    (name : List Nat) : DirOutcome :=
  if (Find cfg disk table name).isNone then .ok false table disk
  else
    match lastSlashIdx name with
    | none => .crash
    | some slash =>
      let file := name.drop (slash + 1)
      if 0 < slash ∧ name.getD 0 0 ≠ 0 then
        match Find cfg disk table (name.take slash) with
        | none => .crash
        | some sec =>
          let nextTable := disk sec
          match findIndexAux cfg.nameMax file nextTable with
          | none => .ok false table disk
          | some id =>
            let e := nextTable.getD id dfltEntry
            .ok true table
              (writeDir disk sec (nextTable.set id { e with inUse := false }))
      else
        match findIndexAux cfg.nameMax name table with
        | none => .ok false table disk
        | some id =>
          let e := table.getD id dfltEntry
          .ok true (table.set id { e with inUse := false }) disk

/-! ### Concrete instances shared by several theorems -/

/-- The NachOS values of the layout constants: `SectorSize = 128`,
`SectorNumPerList = SectorSize / sizeof(int) = 32`, `NumSectors = 1024`,
`FileNameMaxLen = 9` (spec: NAME_MAX ≤ 9). -/
def cfgN : Config := ⟨128, 32, 1024, 9⟩

/-- A directory disk with nothing stored. -/
def emptyDsk : Dsk := fun _ => []

/-- An index-sector disk with nothing stored. -/
def emptyIdxDisk : IdxDisk := fun _ => []

/-- A header record as produced by the `FileHeader` constructor is irrelevant
here; this is a placeholder previous value with recognizable fields. -/
def hdrPrev : FileHeader := ⟨99, 99, 99, [7]⟩

/-! ### Helper lemmas -/

theorem take_take_self {α : Type} (l : List α) (n : Nat) :
    (l.take n).take n = l.take n := by
  rw [List.take_take, Nat.min_self]

theorem set_append_len {α : Type} (us : List α) (b e : α) (bs : List α) :
    (us ++ b :: bs).set us.length e = us ++ e :: bs := by
  induction us with
  | nil => rfl
  | cons a t ih => simp [List.set, ih]

theorem getD_set_ne {α : Type} (l : List α) (i j : Nat) (b d : α)
    (h : i ≠ j) : (l.set i b).getD j d = l.getD j d := by
  induction l generalizing i j with
  | nil => rfl
  | cons a t ih =>
    cases i with
    | zero =>
      cases j with
      | zero => exact absurd rfl h
      | succ j' => rfl
    | succ i' =>
      cases j with
      | zero => rfl
      | succ j' =>
        simp only [List.set, List.getD_cons_succ]
        exact ih i' j' (fun hc => h (by rw [hc]))

theorem takeWhile_ne_slash {l : List Nat} (h : slashB ∉ l) :
    l.takeWhile (fun b => b != slashB) = l := by
  refine List.takeWhile_eq_self_iff.mpr ?_
  intro x hx
  simp only [bne_iff_ne, ne_eq]
  intro hc
  exact h (hc ▸ hx)

theorem dropWhile_ne_slash {l : List Nat} (h : slashB ∉ l) :
    l.dropWhile (fun b => b != slashB) = [] := by
  refine List.dropWhile_eq_nil_iff.mpr ?_
  intro x hx
  simp only [bne_iff_ne, ne_eq]
  intro hc
  exact h (hc ▸ hx)

theorem lastSlashIdx_none {l : List Nat} (h : slashB ∉ l) :
    lastSlashIdx l = none := by
  induction l with
  | nil => rfl
  | cons a t ih =>
    have ha : a ≠ slashB := fun hc => h (hc ▸ List.mem_cons_self a t)
    have ht : slashB ∉ t := fun hc => h (List.mem_cons_of_mem a hc)
    simp [lastSlashIdx, ih ht, ha]

theorem lastSlashIdx_cons_slash {l : List Nat} (h : slashB ∉ l) :
    lastSlashIdx (slashB :: l) = some 0 := by
  simp [lastSlashIdx, lastSlashIdx_none h]

/-- `Find` on a single-component absolute path `/leaf` is a `FindIndex`
lookup of the leaf followed by projecting the entry's sector. -/
theorem find_top (cfg : Config) (disk : Dsk) (table : List DirEntry)
    {leaf : List Nat} (h : slashB ∉ leaf) :
    Find cfg disk table (slashB :: leaf)
      = (findIndexAux cfg.nameMax leaf table).map
          (fun i => (table.getD i dfltEntry).sector) := by
  simp only [Find, List.length_cons, findFuel, List.tail_cons,
    takeWhile_ne_slash h, dropWhile_ne_slash h]
  cases hfi : findIndexAux cfg.nameMax leaf table with
  | none => rfl
  | some i => simp

theorem findIndexAux_congr {n : Nat} {q1 q2 : List Nat}
    (h : q1.take n = q2.take n) (t : List DirEntry) :
    findIndexAux n q1 t = findIndexAux n q2 t := by
  induction t with
  | nil => rfl
  | cons e rest ih => simp [findIndexAux, h, ih]

theorem findIndexAux_none {n : Nat} {q : List Nat} {t : List DirEntry}
    (h : ∀ e ∈ t, e.inUse = true → e.name.take n ≠ q.take n) :
    findIndexAux n q t = none := by
  induction t with
  | nil => rfl
  | cons e rest ih =>
    have he : ¬(e.inUse && (e.name.take n == q.take n)) = true := by
      simp only [Bool.and_eq_true, beq_iff_eq]
      rintro ⟨h1, h2⟩
      exact h e (List.mem_cons_self e rest) h1 h2
    simp only [findIndexAux, if_neg he,
      ih (fun e' he' => h e' (List.mem_cons_of_mem e he'))]
    rfl

theorem firstFreeBnd_some {n : Nat} :
    ∀ {t : List DirEntry} {k : Nat}, firstFreeBnd n t = some k →
      k < n ∧ (t.getD k oobEntry).inUse = false ∧
      ∀ j < k, (t.getD j oobEntry).inUse = true := by
  induction n with
  | zero => intro t k h; exact absurd h (by simp [firstFreeBnd])
  | succ n' ih =>
    intro t k h
    simp only [firstFreeBnd] at h
    by_cases hu : (t.headD oobEntry).inUse
    · rw [if_pos hu] at h
      cases hk : firstFreeBnd n' t.tail with
      | none => rw [hk] at h; exact absurd h (by simp)
      | some k' =>
        rw [hk] at h
        have h : k' + 1 = k := by simpa using h
        obtain ⟨hlt, hfree, hbefore⟩ := ih hk
        cases t with
        | nil =>
          exfalso
          simp only [List.tail_nil] at hk
          have := (ih hk).2.1
          simp [List.getD, oobEntry] at this
        | cons e rest =>
          have hkk : k = k' + 1 := h.symm
          subst hkk
          refine ⟨by omega, ?_, ?_⟩
          · simpa using hfree
          · intro j hj
            cases j with
            | zero => simpa using hu
            | succ j' =>
              simp only [List.getD_cons_succ]
              exact hbefore j' (by omega)
    · rw [if_neg hu] at h
      injection h with h'
      subst h'
      refine ⟨Nat.succ_pos n', ?_, ?_⟩
      · cases t with
        | nil => simp [oobEntry] at hu
        | cons e rest => simpa using hu
      · intro j hj; omega

theorem firstFreeBnd_full {n : Nat} :
    ∀ {t : List DirEntry}, (∀ e ∈ t, e.inUse = true) → n ≤ t.length →
      firstFreeBnd n t = none := by
  induction n with
  | zero => intro t _ _; rfl
  | succ n' ih =>
    intro t hu hn
    cases t with
    | nil => simp at hn
    | cons e rest =>
      have he : e.inUse = true := hu e (List.mem_cons_self e rest)
      simp only [firstFreeBnd, List.headD_cons, he, if_pos, List.tail_cons]
      rw [ih (fun e' h' => hu e' (List.mem_cons_of_mem e h')) (by simpa using hn)]
      rfl

/-! ### C1 -/

/-- Claim C1 is refuted by the code for the top-level paths it explicitly
includes: with a root table holding the single in-use entry named "f"
(byte 102) at sector 5, `Find("/f")` resolves to 5, yet `Remove("/f")`
returns FALSE and leaves the entry's `in_use` flag set.  The top-level branch
of `Directory::Remove` (directory.cc line 264) passes the whole path,
leading slash included, to `FindIndex`, which can never match a stored leaf
name; the nested branch correctly passes the extracted leaf. -/
theorem c1_remove_toplevel_failing_input :
    Find cfgN emptyDsk [⟨true, [102], 5, 70⟩] [47, 102] = some 5 ∧
    (Directory.Remove cfgN emptyDsk [⟨true, [102], 5, 70⟩] [47, 102]).ret
      = some false ∧
    (Directory.Remove cfgN emptyDsk [⟨true, [102], 5, 70⟩] [47, 102]).tbl []
      = [⟨true, [102], 5, 70⟩] := by
  decide

/-! ### C3 -/

/-- The free map with sectors 0-63 clear and the rest in use. -/
def B64 : List Bool := List.replicate 64 false ++ List.replicate 960 true

/-- Claim C3 is refuted by the code: allocating a one-sector file
(`file_size = 128 = S`, so `num_sectors = 1`, `num_lists = 1`) out of a map
with 64 clear sectors reserves the index sector 0 plus 32 data sectors
(numbers 1..32, persisted in full to the index sector), not the
`min(L, num_sectors − 0·L) = 1` data sector the claim states: 33 bits get
set, leaving 31 clear instead of 62.  The cause is filehdr.cc line 86 using
the global disk constant `NumSectors` (1024) instead of the member
`numSectors` when computing `lastSectorNum`. -/
theorem c3_allocate_overallocates_failing_input :
    (codeAllocate cfgN hdrPrev B64 emptyIdxDisk 128).isOk = true ∧
    (codeAllocate cfgN hdrPrev B64 emptyIdxDisk 128).hdrD ⟨0, 0, 0, []⟩
      = ⟨128, 1, 1, [0]⟩ ∧
    ((codeAllocate cfgN hdrPrev B64 emptyIdxDisk 128).dskD emptyIdxDisk) 0
      = (List.range 32).map (· + 1) ∧
    numClear ((codeAllocate cfgN hdrPrev B64 emptyIdxDisk 128).bmpD []) = 31 := by
  decide

/-! ### C4 -/

/-- A well-formed header for a one-sector file whose single index sector
lives at sector 5 (satisfying I4: `num_lists = ceil(1/32) = 1`). -/
def hdrD1 : FileHeader := ⟨128, 1, 1, [5]⟩

/-- A free map with sectors 3, 5 and 7 in use: 5 is the index sector, 7 a
data sector it references, 3 an unrelated allocated sector. -/
def B357 : List Bool :=
  (((List.replicate 1024 false).set 3 true).set 5 true).set 7 true

/-- Claim C4 is refuted by the code: `Deallocate` never calls `ReadSector`
(its model does not even take the disk as an argument), so the bits it
clears come from the uninitialized `new` buffer, here modelled as the
constant garbage value 3.  On the failing input — header `hdrD1` with index
sector 5, data sector 7 in use, and unrelated sector 3 in use — the run
clears sector 3's bit and leaves both the referenced data sector 7 and the
index sector 5 marked allocated, contradicting every part of the claim. -/
theorem c4_deallocate_failing_input :
    codeDeallocate cfgN hdrD1 B357 (fun _ _ => 3)
      = some (((List.replicate 1024 false).set 5 true).set 7 true) ∧
    ((codeDeallocate cfgN hdrD1 B357 (fun _ _ => 3)).getD []).getD 5 false
      = true ∧
    ((codeDeallocate cfgN hdrD1 B357 (fun _ _ => 3)).getD []).getD 7 false
      = true ∧
    ((codeDeallocate cfgN hdrD1 B357 (fun _ _ => 3)).getD []).getD 3 false
      = false := by
  decide

/-! ### C2 -/

/-- Claim C2 amended: `Allocate` returns FALSE exactly when the free map has
fewer than `num_sectors` clear bits (filehdr.cc line 77 checks `numSectors`
only, not `numSectors + numLists`); on that failure the free map, the disk
and `dataSectorLists` are unchanged, but `num_bytes`, `num_sectors` and
`num_lists` have already been overwritten with the new file's values. -/
theorem c2_allocate_fail_iff (cfg : Config) (hdr : FileHeader) (B : List Bool)
    (d : IdxDisk) (f : Nat) :
    ((codeAllocate cfg hdr B d f).isFail = true ↔
      numClear B < divRoundUp f cfg.S) ∧
    ((codeAllocate cfg hdr B d f).isFail = true →
      (codeAllocate cfg hdr B d f).hdrD hdr
        = ⟨f, divRoundUp f cfg.S, divRoundUp (divRoundUp f cfg.S) cfg.L,
            hdr.dataSectorLists⟩ ∧
      (codeAllocate cfg hdr B d f).bmpD [] = B ∧
      ∀ s, ((codeAllocate cfg hdr B d f).dskD d) s = d s) := by
  unfold codeAllocate
  by_cases hlt : numClear B < divRoundUp f cfg.S
  · simp only [if_pos hlt]
    exact ⟨⟨fun _ => hlt, fun _ => rfl⟩, fun _ => ⟨rfl, rfl, fun _ => rfl⟩⟩
  · simp only [if_neg hlt]
    cases hl : allocLoop cfg (divRoundUp (divRoundUp f cfg.S) cfg.L) 0 B d with
    | none =>
      refine ⟨⟨fun h => ?_, fun h => absurd h hlt⟩, fun h => ?_⟩ <;>
        simp [AllocOutcome.isFail] at h
    | some v =>
      refine ⟨⟨fun h => ?_, fun h => absurd h hlt⟩, fun h => ?_⟩ <;>
        simp [AllocOutcome.isFail] at h

/-- Witness for C2's theorem at a concrete input: an all-used free map (zero
clear bits) and a one-sector file; the guard fires, the free map and disk are
untouched and the header fields are overwritten. -/
theorem c2_allocate_fail_iff_witness :
    numClear (List.replicate 1024 true) < divRoundUp 128 cfgN.S ∧
    (codeAllocate cfgN hdrPrev (List.replicate 1024 true) emptyIdxDisk
        128).hdrD hdrPrev = ⟨128, 1, 1, [7]⟩ ∧
    (codeAllocate cfgN hdrPrev (List.replicate 1024 true) emptyIdxDisk
        128).bmpD [] = List.replicate 1024 true ∧
    ((codeAllocate cfgN hdrPrev (List.replicate 1024 true) emptyIdxDisk
        128).dskD emptyIdxDisk) 3 = emptyIdxDisk 3 := by
  have h := c2_allocate_fail_iff cfgN hdrPrev (List.replicate 1024 true)
    emptyIdxDisk 128
  have hf := h.1.mpr (by decide)
  obtain ⟨h1, h2, h3⟩ := h.2 hf
  exact ⟨by decide, h1, h2, h3 3⟩

/-- A free map with exactly one clear bit (sector 0). -/
def Bone : List Bool := false :: List.replicate 63 true

/-- Counterexample to claim C2 as stated, at two concrete inputs with
`num_sectors = 1` and `num_lists = 1`: (i) on a clean failure (zero clear
bits) the in-memory header is *not* left unchanged — its fields are
overwritten; (ii) with exactly one clear bit, which is fewer than
`num_sectors + num_lists = 2`, Allocate does *not* fail cleanly: it passes
the guard and dies on `ASSERT` (the outcome is neither a FALSE return nor a
success). -/
theorem c2_counterexample :
    ((codeAllocate cfgN hdrPrev (List.replicate 1024 true) emptyIdxDisk
        128).isFail = true ∧
      (codeAllocate cfgN hdrPrev (List.replicate 1024 true) emptyIdxDisk
        128).hdrD hdrPrev ≠ hdrPrev) ∧
    (numClear Bone < divRoundUp 128 cfgN.S
        + divRoundUp (divRoundUp 128 cfgN.S) cfgN.L ∧
      (codeAllocate cfgN hdrPrev Bone emptyIdxDisk 128).isFail = false ∧
      (codeAllocate cfgN hdrPrev Bone emptyIdxDisk 128).isOk = false) := by
  decide

/-! ### C5 -/

/-- The all-clear free map. -/
def BAll0 : List Bool := List.replicate 1024 false

/-- The header produced by allocating a one-sector file out of `BAll0`. -/
def hdrA : FileHeader := ⟨128, 1, 1, [0]⟩

/-- The free map produced by that allocation: sectors 0..32 in use (index
sector 0 plus 32 data sectors, see C3). -/
def BA : List Bool := List.replicate 33 true ++ List.replicate 991 false

/-- Claim C5 is refuted by the code: allocating a one-sector file out of the
all-clear map succeeds, producing header `hdrA` and map `BA` with sectors
0..32 set; but Deallocate of that header restores nothing.  Its inner loop
runs once over `min(L, num_sectors) = 1` uninitialized buffer slot, so with
garbage value 100 (a clear sector) the `ASSERT(freeMap->Test(...))` trips (outcome `none`), and
for *every* garbage content at most one bit is cleared, leaving data-sector
bits 1 and 2 still set — the result is never the original map on the touched
sectors. -/
theorem c5_alloc_dealloc_not_neutral :
    ((codeAllocate cfgN hdrPrev BAll0 emptyIdxDisk 128).isOk = true ∧
      (codeAllocate cfgN hdrPrev BAll0 emptyIdxDisk 128).hdrD hdrPrev
        = hdrA ∧
      (codeAllocate cfgN hdrPrev BAll0 emptyIdxDisk 128).bmpD [] = BA) ∧
    codeDeallocate cfgN hdrA BA (fun _ _ => 100) = none ∧
    ∀ (g : Nat → Nat → Nat) (B'' : List Bool),
      codeDeallocate cfgN hdrA BA g = some B'' →
      ¬(B''.getD 1 false = false ∧ B''.getD 2 false = false) := by
  refine ⟨by decide, by decide, ?_⟩
  intro g B'' h
  have hrange : List.range 1 = [0] := rfl
  simp only [codeDeallocate, deallocLoop, clearSeq, hdrA, hrange,
    List.map_cons, List.map_nil] at h
  by_cases hb : BA.getD (g 0 0) false = true
  · rw [if_pos hb] at h
    simp only [deallocLoop] at h
    injection h with h'
    subst h'
    rintro ⟨h1, h2⟩
    by_cases hg : g 0 0 = 1
    · rw [hg] at h2
      rw [getD_set_ne BA 1 2 false false (by omega)] at h2
      exact absurd h2 (by decide)
    · rw [getD_set_ne BA (g 0 0) 1 false false hg] at h1
      exact absurd h1 (by decide)
  · rw [if_neg hb] at h
    exact absurd h (by simp)

/-- Witness for C5's universally-quantified part: with garbage value 1 the
run clears exactly bit 1, and the conclusion holds because bit 2 survives. -/
theorem c5_alloc_dealloc_not_neutral_witness :
    ¬((BA.set 1 false).getD 1 false = false ∧
      (BA.set 1 false).getD 2 false = false) :=
  c5_alloc_dealloc_not_neutral.2.2 (fun _ _ => 1) (BA.set 1 false) (by decide)

/-! ### C7 -/

theorem findAndSet_mono :
    ∀ {B : List Bool} {k : Nat} {B' : List Bool}, findAndSet B = some (k, B') →
      ∀ j, B.getD j false = true → B'.getD j false = true := by
  intro B
  induction B with
  | nil => intro k B' h; simp [findAndSet] at h
  | cons b rest ih =>
    intro k B' h j hj
    cases b with
    | false =>
      simp only [findAndSet, Bool.false_eq_true, if_false,
        Option.some.injEq, Prod.mk.injEq] at h
      obtain ⟨hk, hB⟩ := h
      subst hB
      cases j with
      | zero => rfl
      | succ j' => simpa using hj
    | true =>
      simp only [findAndSet, if_true] at h
      cases hr : findAndSet rest with
      | none => rw [hr] at h; simp at h
      | some p =>
        obtain ⟨k', r'⟩ := p
        rw [hr] at h
        simp only [Option.some.injEq, Prod.mk.injEq] at h
        obtain ⟨hk, hB⟩ := h
        subst hB
        cases j with
        | zero => rfl
        | succ j' =>
          simp only [List.getD_cons_succ] at hj ⊢
          exact ih hr j' hj

theorem findAndSet_free :
    ∀ {B : List Bool} {k : Nat} {B' : List Bool}, findAndSet B = some (k, B') →
      B.getD k false = false := by
  intro B
  induction B with
  | nil => intro k B' h; simp [findAndSet] at h
  | cons b rest ih =>
    intro k B' h
    cases b with
    | false =>
      simp only [findAndSet, Bool.false_eq_true, if_false,
        Option.some.injEq, Prod.mk.injEq] at h
      obtain ⟨hk, _⟩ := h
      subst hk
      rfl
    | true =>
      simp only [findAndSet, if_true] at h
      cases hr : findAndSet rest with
      | none => rw [hr] at h; simp at h
      | some p =>
        obtain ⟨k', r'⟩ := p
        rw [hr] at h
        simp only [Option.some.injEq, Prod.mk.injEq] at h
        obtain ⟨hk, _⟩ := h
        subst hk
        simpa using ih hr

theorem findAndSet_set :
    ∀ {B : List Bool} {k : Nat} {B' : List Bool}, findAndSet B = some (k, B') →
      B'.getD k false = true := by
  intro B
  induction B with
  | nil => intro k B' h; simp [findAndSet] at h
  | cons b rest ih =>
    intro k B' h
    cases b with
    | false =>
      simp only [findAndSet, Bool.false_eq_true, if_false,
        Option.some.injEq, Prod.mk.injEq] at h
      obtain ⟨hk, hB⟩ := h
      subst hk hB
      rfl
    | true =>
      simp only [findAndSet, if_true] at h
      cases hr : findAndSet rest with
      | none => rw [hr] at h; simp at h
      | some p =>
        obtain ⟨k', r'⟩ := p
        rw [hr] at h
        simp only [Option.some.injEq, Prod.mk.injEq] at h
        obtain ⟨hk, hB⟩ := h
        subst hk hB
        simpa using ih hr

theorem allocSeq_mono :
    ∀ {c : Nat} {B ss B'}, allocSeq B c = some (ss, B') →
      ∀ j, B.getD j false = true → B'.getD j false = true := by
  intro c
  induction c with
  | zero =>
    intro B ss B' h j hj
    simp only [allocSeq, Option.some.injEq, Prod.mk.injEq] at h
    obtain ⟨_, hB⟩ := h
    subst hB
    exact hj
  | succ c' ih =>
    intro B ss B' h j hj
    cases hfs : findAndSet B with
    | none => simp [allocSeq, hfs] at h
    | some p =>
      obtain ⟨s, B1⟩ := p
      cases hsq : allocSeq B1 c' with
      | none => simp [allocSeq, hfs, hsq] at h
      | some q =>
        obtain ⟨ss2, B2⟩ := q
        simp only [allocSeq, hfs, hsq, Option.some.injEq,
          Prod.mk.injEq] at h
        obtain ⟨_, hB⟩ := h
        subst hB
        exact ih hsq j (findAndSet_mono hfs j hj)

/-- The combined loop invariant of `FileHeader::Allocate`'s outer loop:
the returned index-sector list has one entry per iteration, bits already set
stay set, every returned index sector was clear before and is set after, and
the returned index sectors are pairwise distinct. -/
theorem allocLoop_aux (cfg : Config) :
    ∀ (k now : Nat) (B : List Bool) (d : IdxDisk) (ls : List Nat)
      (B' : List Bool) (d' : IdxDisk),
      allocLoop cfg k now B d = some (ls, B', d') →
      ls.length = k ∧
      (∀ j, B.getD j false = true → B'.getD j false = true) ∧
      (∀ x ∈ ls, B.getD x false = false ∧ B'.getD x false = true) ∧
      ls.Nodup := by
  intro k
  induction k with
  | zero =>
    intro now B d ls B' d' h
    simp only [allocLoop, Option.some.injEq, Prod.mk.injEq] at h
    obtain ⟨hls, hB, _⟩ := h
    subst hls hB
    exact ⟨rfl, fun j hj => hj, by simp, List.nodup_nil⟩
  | succ k' ih =>
    intro now B d ls B' d' h
    cases hfs : findAndSet B with
    | none => simp [allocLoop, hfs] at h
    | some p =>
      obtain ⟨x, B1⟩ := p
      cases hsq : allocSeq B1 (min (now + cfg.L) cfg.N - now) with
      | none => simp [allocLoop, hfs, hsq] at h
      | some q =>
        obtain ⟨ss, B2⟩ := q
        cases hal : allocLoop cfg k' (now + cfg.L) B2
            (writeIdx d x
              (ss ++ List.replicate (cfg.L - (min (now + cfg.L) cfg.N - now)) 0)) with
        | none => simp [allocLoop, hfs, hsq, hal] at h
        | some r =>
          obtain ⟨rest, B3, d2⟩ := r
          simp only [allocLoop, hfs, hsq, hal, Option.some.injEq,
            Prod.mk.injEq] at h
          obtain ⟨hls, hB, _⟩ := h
          subst hls hB
          obtain ⟨hlen, hmono, hfs2, hnd⟩ := ih _ _ _ _ _ _ hal
          have hx2 : B2.getD x false = true :=
            allocSeq_mono hsq x (findAndSet_set hfs)
          have hx3 : B3.getD x false = true := hmono x hx2
          have hxfree : B.getD x false = false := findAndSet_free hfs
          refine ⟨by simp [hlen], ?_, ?_, ?_⟩
          · intro j hj
            exact hmono j (allocSeq_mono hsq j (findAndSet_mono hfs j hj))
          · intro y hy
            rcases List.mem_cons.mp hy with hy | hy
            · subst hy
              exact ⟨hxfree, hx3⟩
            · obtain ⟨hyfree2, hyset⟩ := hfs2 y hy
              refine ⟨?_, hyset⟩
              by_cases hyB : B.getD y false = true
              · have : B2.getD y false = true :=
                  allocSeq_mono hsq y (findAndSet_mono hfs y hyB)
                rw [this] at hyfree2
                exact absurd hyfree2 (by simp)
              · simpa using hyB
          · refine List.nodup_cons.mpr ⟨?_, hnd⟩
            intro hxmem
            have := (hfs2 x hxmem).1
            rw [hx2] at this
            exact absurd this (by simp)

theorem divRoundUp_mul_self (S k : Nat) (hS : 0 < S) :
    divRoundUp (S * k) S = k := by
  unfold divRoundUp
  have h1 : S * k + S - 1 = (S - 1) + S * k := by omega
  rw [h1, Nat.add_mul_div_left _ _ hS, Nat.div_eq_of_lt (by omega)]
  omega

theorem divRoundUp_succ_self (L : Nat) (hL : 0 < L) :
    divRoundUp (L + 1) L = 2 := by
  unfold divRoundUp
  have h1 : L + 1 + L - 1 = L * 2 := by omega
  rw [h1, Nat.mul_div_cancel_left _ hL]

/-- Destructor for a successful `codeAllocate`: it exposes the allocation
loop's result and the produced header. -/
theorem codeAllocate_isOk (cfg : Config) (hdr : FileHeader) (B : List Bool)
    (d : IdxDisk) (f : Nat)
    (h : (codeAllocate cfg hdr B d f).isOk = true) :
    ∃ ls B' d', allocLoop cfg (divRoundUp (divRoundUp f cfg.S) cfg.L) 0 B d
        = some (ls, B', d') ∧
      (codeAllocate cfg hdr B d f).hdrD hdr
        = ⟨f, divRoundUp f cfg.S, divRoundUp (divRoundUp f cfg.S) cfg.L,
            ls ++ hdr.dataSectorLists.drop
              (divRoundUp (divRoundUp f cfg.S) cfg.L)⟩ := by
  unfold codeAllocate at h ⊢
  by_cases hlt : numClear B < divRoundUp f cfg.S
  · rw [if_pos hlt] at h
    simp [AllocOutcome.isOk] at h
  · rw [if_neg hlt] at h ⊢
    cases hal : allocLoop cfg (divRoundUp (divRoundUp f cfg.S) cfg.L) 0 B d with
    | none => rw [hal] at h; simp [AllocOutcome.isOk] at h
    | some r =>
      obtain ⟨ls, B', d'⟩ := r
      exact ⟨ls, B', d', rfl, rfl⟩

/-- Claim C7: `ByteToSector(offset)` computes `k = offset / S`, `i = k / L`,
`j = k mod L`, reads the index sector stored at `dataSectorLists[i]` as
consecutive sector numbers and returns slot `j`; and a file of size
`S × (L + 1)` has `num_sectors = L + 1`, `num_lists = 2`, offsets `0` and
`S × L` are translated through list indices `0` and `1` respectively, and
the two index-sector numbers are distinct (allocation reserves pairwise
distinct sectors). -/
theorem c7_byte_to_sector (cfg : Config) (hS : 0 < cfg.S) (hL : 0 < cfg.L) :
    (∀ (idisk : IdxDisk) (hdr : FileHeader) (offset : Nat),
      0 < hdr.numBytes → offset < hdr.numBytes →
      ByteToSector cfg idisk hdr offset
        = (idisk (hdr.dataSectorLists.getD (offset / cfg.S / cfg.L) 0)).getD
            (offset / cfg.S % cfg.L) 0) ∧
    (∀ (hdr : FileHeader) (B : List Bool) (d : IdxDisk),
      (codeAllocate cfg hdr B d (cfg.S * (cfg.L + 1))).isOk = true →
      ((codeAllocate cfg hdr B d (cfg.S * (cfg.L + 1))).hdrD hdr).numSectors
          = cfg.L + 1 ∧
      ((codeAllocate cfg hdr B d (cfg.S * (cfg.L + 1))).hdrD hdr).numLists
          = 2 ∧
      0 / cfg.S / cfg.L = 0 ∧
      cfg.S * cfg.L / cfg.S / cfg.L = 1 ∧
      ((codeAllocate cfg hdr B d
          (cfg.S * (cfg.L + 1))).hdrD hdr).dataSectorLists.getD 0 0
        ≠ ((codeAllocate cfg hdr B d
          (cfg.S * (cfg.L + 1))).hdrD hdr).dataSectorLists.getD 1 0) := by
  have hnS : divRoundUp (cfg.S * (cfg.L + 1)) cfg.S = cfg.L + 1 :=
    divRoundUp_mul_self _ _ hS
  have hnL : divRoundUp (divRoundUp (cfg.S * (cfg.L + 1)) cfg.S) cfg.L = 2 := by
    rw [hnS]
    exact divRoundUp_succ_self _ hL
  refine ⟨fun idisk hdr offset _ _ => rfl, fun hdr B d hok => ?_⟩
  obtain ⟨ls, B', d', hal, hhdr⟩ := codeAllocate_isOk cfg hdr B d _ hok
  rw [hnL] at hal
  obtain ⟨hlen, _, _, hnd⟩ := allocLoop_aux cfg 2 0 B d ls B' d' hal
  match ls, hlen with
  | [a, b], _ =>
    have hab : a ≠ b := by
      simp only [List.nodup_cons, List.mem_cons, List.not_mem_nil,
        or_false] at hnd
      exact hnd.1
    rw [hhdr]
    refine ⟨by rw [hnS], by rw [hnL], by simp, ?_, ?_⟩
    · rw [Nat.mul_div_cancel_left _ hS, Nat.div_self hL]
    · simpa using hab

/-- Witness for C7 at the NachOS constants: a general translation instance,
and allocation of a `128 × 33`-byte file out of the all-clear map, whose two
index sectors differ. -/
theorem c7_byte_to_sector_witness :
    ByteToSector cfgN emptyIdxDisk hdrD1 5
      = (emptyIdxDisk (hdrD1.dataSectorLists.getD (5 / cfgN.S / cfgN.L) 0)).getD
          (5 / cfgN.S % cfgN.L) 0 ∧
    ((codeAllocate cfgN hdrPrev BAll0 emptyIdxDisk
        (cfgN.S * (cfgN.L + 1))).hdrD hdrPrev).numLists = 2 ∧
    ((codeAllocate cfgN hdrPrev BAll0 emptyIdxDisk
        (cfgN.S * (cfgN.L + 1))).hdrD hdrPrev).dataSectorLists.getD 0 0
      ≠ ((codeAllocate cfgN hdrPrev BAll0 emptyIdxDisk
        (cfgN.S * (cfgN.L + 1))).hdrD hdrPrev).dataSectorLists.getD 1 0 := by
  have h := c7_byte_to_sector cfgN (by decide) (by decide)
  have h2 := h.2 hdrPrev BAll0 emptyIdxDisk (by decide)
  exact ⟨h.1 emptyIdxDisk hdrD1 5 (by decide) (by decide),
    h2.2.1, h2.2.2.2.2⟩

/-! ### C8 -/

theorem getD_set_self {α : Type} :
    ∀ (l : List α) (k : Nat) (e d : α), k < l.length →
      (l.set k e).getD k d = e := by
  intro l
  induction l with
  | nil => intro k e d hk; simp at hk
  | cons a t ih =>
    intro k e d hk
    cases k with
    | zero => rfl
    | succ k' =>
      simp only [List.set, List.getD_cons_succ]
      exact ih k' e d (by simpa using hk)

/-- Inserting a matching entry at index `k` of a table in which no in-use
entry matches the query makes `FindIndex` return `k`. -/
theorem findIndexAux_set (n : Nat) (q : List Nat) :
    ∀ (t : List DirEntry) (k : Nat) (e : DirEntry), k < t.length →
      findIndexAux n q t = none →
      e.inUse = true → e.name.take n = q.take n →
      findIndexAux n q (t.set k e) = some k := by
  intro t
  induction t with
  | nil => intro k e hk; simp at hk
  | cons a rest ih =>
    intro k e hk hnone hu hm
    have hna : ¬(a.inUse && (a.name.take n == q.take n)) = true := by
      intro hc
      simp [findIndexAux, hc] at hnone
    have hnrest : findIndexAux n q rest = none := by
      simp only [findIndexAux, if_neg hna] at hnone
      cases hfr : findIndexAux n q rest with
      | none => rfl
      | some v => rw [hfr] at hnone; simp at hnone
    cases k with
    | zero => simp [List.set, findIndexAux, hu, hm]
    | succ k' =>
      simp only [List.set, findIndexAux, if_neg hna,
        ih k' e (by simpa using hk) hnrest hu hm]
      rfl

/-- Claim C8: adding a leaf longer than NAME_MAX bytes into a directory with
a free slot (and no entry already matching the leaf's first NAME_MAX bytes)
succeeds, stores the leaf silently truncated to its first NAME_MAX bytes in
the first free slot, and a subsequent Find on the truncated name resolves to
the new entry's sector. -/
theorem c8_long_leaf_truncated (cfg : Config) (disk : Dsk)
    (table : List DirEntry) (leaf : List Nat) (s ty k : Nat)
    (h47 : slashB ∉ leaf) (hlong : cfg.nameMax < leaf.length)
    (hdup : Find cfg disk table (slashB :: leaf) = none)
    (hfree : firstFreeBnd table.length table = some k) :
    Directory.Add cfg disk table (slashB :: leaf) s ty
      = .ok true (table.set k ⟨true, leaf.take cfg.nameMax, s, ty⟩) disk ∧
    Find cfg disk (table.set k ⟨true, leaf.take cfg.nameMax, s, ty⟩)
      (slashB :: leaf.take cfg.nameMax) = some s := by
  have hsl := lastSlashIdx_cons_slash h47
  have hkl := (firstFreeBnd_some hfree).1
  have hnone : findIndexAux cfg.nameMax leaf table = none := by
    rw [find_top cfg disk table h47] at hdup
    cases hfi : findIndexAux cfg.nameMax leaf table with
    | none => rfl
    | some v => rw [hfi] at hdup; simp at hdup
  have h47t : slashB ∉ leaf.take cfg.nameMax :=
    fun hc => h47 (List.mem_of_mem_take hc)
  constructor
  · simp only [Directory.Add, hdup, Option.isSome_none, Bool.false_eq_true,
      if_false, hsl, List.drop_succ_cons, List.drop_zero]
    have hc : ¬(0 < 0 ∧ (slashB :: leaf).getD 0 0 ≠ 0) := by
      rintro ⟨hc0, _⟩
      exact absurd hc0 (by omega)
    rw [if_neg hc, hfree]
  · rw [find_top cfg disk _ h47t]
    have hnone' : findIndexAux cfg.nameMax (leaf.take cfg.nameMax) table =
        none := by
      rw [findIndexAux_congr (take_take_self leaf cfg.nameMax) table]
      exact hnone
    rw [findIndexAux_set cfg.nameMax (leaf.take cfg.nameMax) table k
      ⟨true, leaf.take cfg.nameMax, s, ty⟩ hkl hnone' rfl rfl]
    have hget : (table.set k ⟨true, leaf.take cfg.nameMax, s, ty⟩).getD k
        dfltEntry = ⟨true, leaf.take cfg.nameMax, s, ty⟩ :=
      getD_set_self table k _ dfltEntry hkl
    show some (((table.set k ⟨true, leaf.take cfg.nameMax, s, ty⟩).getD k
      dfltEntry).sector) = some s
    rw [hget]

/-- Witness for C8 at the NachOS constants: a ten-byte leaf (nine `a`s then
`x`) added to a one-slot empty directory; the stored name is its first nine
bytes and Find on the truncated name yields the new sector. -/
theorem c8_long_leaf_truncated_witness :
    Directory.Add cfgN emptyDsk [dfltEntry]
        [47, 97, 97, 97, 97, 97, 97, 97, 97, 97, 120] 5 70
      = .ok true
          ([dfltEntry].set 0
            ⟨true, [97, 97, 97, 97, 97, 97, 97, 97, 97].take cfgN.nameMax, 5,
              70⟩)
          emptyDsk ∧
    Find cfgN emptyDsk
        ([dfltEntry].set 0
          ⟨true, [97, 97, 97, 97, 97, 97, 97, 97, 97].take cfgN.nameMax, 5,
            70⟩)
        (slashB :: [97, 97, 97, 97, 97, 97, 97, 97, 97, 120].take cfgN.nameMax)
      = some 5 := by
  have h := c8_long_leaf_truncated cfgN emptyDsk [dfltEntry]
    [97, 97, 97, 97, 97, 97, 97, 97, 97, 120] 5 70 0
    (by decide) (by decide) (by decide) (by decide)
  exact ⟨h.1, h.2⟩

/-! ### C9 -/

/-- Claim C9: two query names agreeing on their first NAME_MAX bytes are
indistinguishable: `FindIndex` returns the same index, and `Find`, `Add` and
`Remove` on the corresponding single-component absolute paths behave
identically. -/
theorem c9_findindex_prefix_only (cfg : Config) (disk : Dsk)
    (table : List DirEntry) (q1 q2 : List Nat) (s ty : Nat)
    (h : q1.take cfg.nameMax = q2.take cfg.nameMax) :
    FindIndex cfg table q1 = FindIndex cfg table q2 ∧
    (slashB ∉ q1 → slashB ∉ q2 →
      Find cfg disk table (slashB :: q1) = Find cfg disk table (slashB :: q2) ∧
      Directory.Add cfg disk table (slashB :: q1) s ty
        = Directory.Add cfg disk table (slashB :: q2) s ty ∧
      Directory.Remove cfg disk table (slashB :: q1)
        = Directory.Remove cfg disk table (slashB :: q2)) := by
  have hfi : ∀ t, findIndexAux cfg.nameMax q1 t = findIndexAux cfg.nameMax q2 t :=
    findIndexAux_congr h
  refine ⟨hfi table, fun hq1 hq2 => ?_⟩
  have hFind : Find cfg disk table (slashB :: q1)
      = Find cfg disk table (slashB :: q2) := by
    rw [find_top cfg disk table hq1, find_top cfg disk table hq2, hfi table]
  have hfull : (slashB :: q1).take cfg.nameMax
      = (slashB :: q2).take cfg.nameMax := by
    cases hn : cfg.nameMax with
    | zero => rfl
    | succ m =>
      simp only [List.take_succ_cons, List.cons.injEq, true_and]
      have : (q1.take (m + 1)).take m = (q2.take (m + 1)).take m := by
        rw [hn] at h
        rw [h]
      simpa [List.take_take, Nat.min_def] using this
  refine ⟨hFind, ?_, ?_⟩
  · simp only [Directory.Add, hFind, lastSlashIdx_cons_slash hq1,
      lastSlashIdx_cons_slash hq2, List.drop_succ_cons, List.drop_zero]
    cases hs : (Find cfg disk table (slashB :: q2)).isSome with
    | true => rfl
    | false =>
      simp only [Bool.false_eq_true, if_false]
      have hc : ¬(0 < 0 ∧ (slashB :: q1).getD 0 0 ≠ 0) := by
        rintro ⟨hc0, _⟩
        exact absurd hc0 (by omega)
      have hc' : ¬(0 < 0 ∧ (slashB :: q2).getD 0 0 ≠ 0) := by
        rintro ⟨hc0, _⟩
        exact absurd hc0 (by omega)
      rw [if_neg hc, if_neg hc']
      cases hfb : firstFreeBnd table.length table with
      | none => rfl
      | some i => rw [h]
  · simp only [Directory.Remove, hFind, lastSlashIdx_cons_slash hq1,
      lastSlashIdx_cons_slash hq2]
    cases hs : (Find cfg disk table (slashB :: q2)).isNone with
    | true => rfl
    | false =>
      simp only [Bool.false_eq_true, if_false]
      have hc : ¬(0 < 0 ∧ (slashB :: q1).getD 0 0 ≠ 0) := by
        rintro ⟨hc0, _⟩
        exact absurd hc0 (by omega)
      have hc' : ¬(0 < 0 ∧ (slashB :: q2).getD 0 0 ≠ 0) := by
        rintro ⟨hc0, _⟩
        exact absurd hc0 (by omega)
      rw [if_neg hc, if_neg hc', findIndexAux_congr hfull table]

/-- Witness for C9: two ten-byte names differing only in their last byte,
looked up in a table storing their common nine-byte truncation. -/
theorem c9_findindex_prefix_only_witness :
    FindIndex cfgN [⟨true, [97, 97, 97, 97, 97, 97, 97, 97, 97], 3, 70⟩]
        [97, 97, 97, 97, 97, 97, 97, 97, 97, 120]
      = FindIndex cfgN [⟨true, [97, 97, 97, 97, 97, 97, 97, 97, 97], 3, 70⟩]
        [97, 97, 97, 97, 97, 97, 97, 97, 97, 121] ∧
    Find cfgN emptyDsk [⟨true, [97, 97, 97, 97, 97, 97, 97, 97, 97], 3, 70⟩]
        (slashB :: [97, 97, 97, 97, 97, 97, 97, 97, 97, 120])
      = Find cfgN emptyDsk [⟨true, [97, 97, 97, 97, 97, 97, 97, 97, 97], 3, 70⟩]
        (slashB :: [97, 97, 97, 97, 97, 97, 97, 97, 97, 121]) := by
  have h := c9_findindex_prefix_only cfgN emptyDsk
    [⟨true, [97, 97, 97, 97, 97, 97, 97, 97, 97], 3, 70⟩]
    [97, 97, 97, 97, 97, 97, 97, 97, 97, 120]
    [97, 97, 97, 97, 97, 97, 97, 97, 97, 121] 4 70 (by decide)
  exact ⟨h.1, (h.2 (by decide) (by decide)).1⟩

/-! ### C10 -/

/-- Claim C10: an `Add` or `Remove` whose path has a non-empty parent part
(an interior slash) never mutates the in-memory table it was invoked on, and
mutates the disk at most at the parent directory's sector (the one
`Find(Path)` resolves to), where the freshly loaded parent copy is persisted
by `WriteBack`. -/
theorem c10_nested_frame (cfg : Config) (disk : Dsk) (table : List DirEntry)
    (name : List Nat) (s ty slash : Nat)
    (hsl : lastSlashIdx name = some slash) (hpos : 1 ≤ slash)
    (h0 : name.getD 0 0 = slashB) :
    (Directory.Add cfg disk table name s ty).tbl table = table ∧
    (Directory.Remove cfg disk table name).tbl table = table ∧
    (∀ x, some x ≠ Find cfg disk table (name.take slash) →
      ((Directory.Add cfg disk table name s ty).dsk disk) x = disk x ∧
      ((Directory.Remove cfg disk table name).dsk disk) x = disk x) := by
  have hcond : 0 < slash ∧ name.getD 0 0 ≠ 0 := by
    refine ⟨by omega, ?_⟩
    rw [h0]
    simp [slashB]
  have hAdd : (Directory.Add cfg disk table name s ty).tbl table = table ∧
      ∀ x, some x ≠ Find cfg disk table (name.take slash) →
        ((Directory.Add cfg disk table name s ty).dsk disk) x = disk x := by
    cases hf : (Find cfg disk table name).isSome with
    | true =>
      simp only [Directory.Add, hf, if_true]
      exact ⟨rfl, fun x _ => rfl⟩
    | false =>
      cases hfp : Find cfg disk table (name.take slash) with
      | none =>
        simp only [Directory.Add, hf, Bool.false_eq_true, if_false, hsl,
          if_pos hcond, hfp]
        exact ⟨rfl, fun x _ => rfl⟩
      | some sec =>
        cases hfb : firstFreeBnd table.length (disk sec) with
        | none =>
          simp only [Directory.Add, hf, Bool.false_eq_true, if_false, hsl,
            if_pos hcond, hfp, hfb]
          exact ⟨rfl, fun x _ => rfl⟩
        | some i =>
          simp only [Directory.Add, hf, Bool.false_eq_true, if_false, hsl,
            if_pos hcond, hfp, hfb]
          refine ⟨rfl, fun x hx => ?_⟩
          have hxs : x ≠ sec := fun hc => hx (by rw [hc])
          simp only [DirOutcome.dsk, writeDir, if_neg hxs]
  have hRem : (Directory.Remove cfg disk table name).tbl table = table ∧
      ∀ x, some x ≠ Find cfg disk table (name.take slash) →
        ((Directory.Remove cfg disk table name).dsk disk) x = disk x := by
    cases hf : (Find cfg disk table name).isNone with
    | true =>
      simp only [Directory.Remove, hf, if_true]
      exact ⟨rfl, fun x _ => rfl⟩
    | false =>
      cases hfp : Find cfg disk table (name.take slash) with
      | none =>
        simp only [Directory.Remove, hf, Bool.false_eq_true, if_false, hsl,
          if_pos hcond, hfp]
        exact ⟨rfl, fun x _ => rfl⟩
      | some sec =>
        cases hfi : findIndexAux cfg.nameMax (name.drop (slash + 1))
            (disk sec) with
        | none =>
          simp only [Directory.Remove, hf, Bool.false_eq_true, if_false, hsl,
            if_pos hcond, hfp, hfi]
          exact ⟨rfl, fun x _ => rfl⟩
        | some id =>
          simp only [Directory.Remove, hf, Bool.false_eq_true, if_false, hsl,
            if_pos hcond, hfp, hfi]
          refine ⟨rfl, fun x hx => ?_⟩
          have hxs : x ≠ sec := fun hc => hx (by rw [hc])
          simp only [DirOutcome.dsk, writeDir, if_neg hxs]
  exact ⟨hAdd.1, hRem.1, fun x hx => ⟨hAdd.2 x hx, hRem.2 x hx⟩⟩

/-- The table and disk of a two-level hierarchy: the root holds directory
entry "a" whose table at sector 8 holds file entry "b" at sector 9. -/
def tblNest : List DirEntry := [⟨true, [97], 8, 68⟩]

/-- The nested disk for `tblNest`. -/
def dNest : Dsk := fun x => if x = 8 then [⟨true, [98], 9, 70⟩] else []

/-- Witness for C10 on the concrete nested path "/a/b": neither Add nor
Remove touches the root's in-memory table, and sector 3 of the disk is
untouched. -/
theorem c10_nested_frame_witness :
    (Directory.Add cfgN dNest tblNest [47, 97, 47, 98] 12 70).tbl tblNest
      = tblNest ∧
    (Directory.Remove cfgN dNest tblNest [47, 97, 47, 98]).tbl tblNest
      = tblNest ∧
    ((Directory.Add cfgN dNest tblNest [47, 97, 47, 98] 12 70).dsk dNest) 3
      = dNest 3 ∧
    ((Directory.Remove cfgN dNest tblNest [47, 97, 47, 98]).dsk dNest) 3
      = dNest 3 := by
  have h := c10_nested_frame cfgN dNest tblNest [47, 97, 47, 98] 12 70 2
    (by decide) (by decide) (by decide)
  exact ⟨h.1, h.2.1, (h.2.2 3 (by decide)).1, (h.2.2 3 (by decide)).2⟩

/-! ### C6 -/

/-- The directory entry `Add` builds for one item (leaf bytes, sector,
type): in use, leaf truncated to `nameMax`, sector and type set. -/
def entryOf (nameMax : Nat) (it : List Nat × Nat × Nat) : DirEntry :=
  ⟨true, it.1.take nameMax, it.2.1, it.2.2⟩

/-- A freshly constructed directory table of `M` zeroed slots. -/
def emptyTable (M : Nat) : List DirEntry := List.replicate M dfltEntry

/-- Driver folding a sequence of top-level Adds (`/leaf` paths), stopping
with `none` as soon as one is refused or crashes. -/
def addAll (cfg : Config) (disk : Dsk) (table : List DirEntry) :
    List (List Nat × Nat × Nat) → Option (List DirEntry)
  | [] => some table
  | it :: rest =>
    match Directory.Add cfg disk table (slashB :: it.1) it.2.1 it.2.2 with
    | .ok true t' _ => addAll cfg disk t' rest
    | _ => none

/-- A top-level `Add` of a fresh leaf into a table with a free slot places
the (truncated) entry at the first free index. -/
theorem add_toplevel_success (cfg : Config) (disk : Dsk)
    (table : List DirEntry) (leaf : List Nat) (s ty k : Nat)
    (h47 : slashB ∉ leaf)
    (hdup : findIndexAux cfg.nameMax leaf table = none)
    (hfree : firstFreeBnd table.length table = some k) :
    Directory.Add cfg disk table (slashB :: leaf) s ty
      = .ok true (table.set k ⟨true, leaf.take cfg.nameMax, s, ty⟩) disk := by
  have hsl := lastSlashIdx_cons_slash h47
  have hfind : Find cfg disk table (slashB :: leaf) = none := by
    rw [find_top cfg disk table h47, hdup]
    rfl
  simp only [Directory.Add, hfind, Option.isSome_none, Bool.false_eq_true,
    if_false, hsl, List.drop_succ_cons, List.drop_zero]
  have hc : ¬(0 < 0 ∧ (slashB :: leaf).getD 0 0 ≠ 0) := by
    rintro ⟨hc0, _⟩
    exact absurd hc0 (by omega)
  rw [if_neg hc, hfree]

/-- A top-level `Add` into a table with no free slot returns failure and
changes nothing. -/
theorem add_toplevel_full (cfg : Config) (disk : Dsk) (table : List DirEntry)
    (leaf : List Nat) (s ty : Nat) (h47 : slashB ∉ leaf)
    (hfull : firstFreeBnd table.length table = none) :
    Directory.Add cfg disk table (slashB :: leaf) s ty
      = .ok false table disk := by
  have hsl := lastSlashIdx_cons_slash h47
  cases hf : (Find cfg disk table (slashB :: leaf)).isSome with
  | true => simp only [Directory.Add, hf, if_true]
  | false =>
    simp only [Directory.Add, hf, Bool.false_eq_true, if_false, hsl]
    have hc : ¬(0 < 0 ∧ (slashB :: leaf).getD 0 0 ≠ 0) := by
      rintro ⟨hc0, _⟩
      exact absurd hc0 (by omega)
    rw [if_neg hc, hfull]

theorem firstFreeBnd_fill :
    ∀ (us : List DirEntry) (f : Nat), (∀ e ∈ us, e.inUse = true) →
      firstFreeBnd (us.length + (f + 1))
          (us ++ List.replicate (f + 1) dfltEntry)
        = some us.length := by
  intro us
  induction us with
  | nil =>
    intro f _
    simp [firstFreeBnd, List.replicate_succ, dfltEntry]
  | cons a t ih =>
    intro f hu
    have ha : a.inUse = true := hu a (List.mem_cons_self a t)
    have hrec := ih f (fun e he => hu e (List.mem_cons_of_mem a he))
    simp only [List.length_cons, List.cons_append, firstFreeBnd,
      List.headD_cons, ha, if_true, List.tail_cons]
    have hn : (t.length + 1).add f = t.length + (f + 1) := by
      show t.length + 1 + f = t.length + (f + 1)
      omega
    rw [hn, hrec]
    rfl

/-- The Nodup-driven invariant of a run of distinct top-level Adds: starting
from a table whose first slots hold the already-added items and whose
remaining `f` slots are free, adding `items` (whose truncations are fresh
and mutually distinct) fills the next slots in order. -/
theorem addAll_fill (cfg : Config) (disk : Dsk) :
    ∀ (items done : List (List Nat × Nat × Nat)) (f : Nat),
      items.length ≤ f →
      ((done ++ items).map (fun it => it.1.take cfg.nameMax)).Nodup →
      (∀ it ∈ done ++ items, slashB ∉ it.1) →
      addAll cfg disk
          (done.map (entryOf cfg.nameMax) ++ List.replicate f dfltEntry)
          items
        = some ((done ++ items).map (entryOf cfg.nameMax)
            ++ List.replicate (f - items.length) dfltEntry) := by
  intro items
  induction items with
  | nil =>
    intro done f _ _ _
    simp [addAll]
  | cons it rest ih =>
    intro done f hf hnd h47
    obtain ⟨f', rfl⟩ : ∃ f', f = f' + 1 :=
      ⟨f - 1, by simp at hf; omega⟩
    have h47it : slashB ∉ it.1 :=
      h47 it (by simp)
    have hdup : findIndexAux cfg.nameMax it.1
        (done.map (entryOf cfg.nameMax)
          ++ List.replicate (f' + 1) dfltEntry) = none := by
      apply findIndexAux_none
      intro e he hu
      rcases List.mem_append.mp he with he | he
      · obtain ⟨d, hd, rfl⟩ := List.mem_map.mp he
        simp only [entryOf]
        rw [take_take_self]
        have hmap : ((done ++ it :: rest).map
            (fun x => x.1.take cfg.nameMax)).Nodup := hnd
        rw [List.map_append] at hmap
        have hdisj := (List.nodup_append.mp hmap).2.2
        have hmem1 : d.1.take cfg.nameMax
            ∈ done.map (fun x => x.1.take cfg.nameMax) :=
          List.mem_map.mpr ⟨d, hd, rfl⟩
        have hmem2 : it.1.take cfg.nameMax
            ∈ (it :: rest).map (fun x => x.1.take cfg.nameMax) := by
          simp
        intro hc
        exact hdisj hmem1 (hc ▸ hmem2)
      · have : e = dfltEntry := List.eq_of_mem_replicate he
        rw [this] at hu
        exact absurd hu (by simp [dfltEntry])
    have hufill : ∀ e ∈ done.map (entryOf cfg.nameMax), e.inUse = true := by
      intro e he
      obtain ⟨d, _, rfl⟩ := List.mem_map.mp he
      rfl
    have hfree := firstFreeBnd_fill (done.map (entryOf cfg.nameMax)) f' hufill
    have hlen : (done.map (entryOf cfg.nameMax)
        ++ List.replicate (f' + 1) dfltEntry).length
        = (done.map (entryOf cfg.nameMax)).length + (f' + 1) := by
      simp
    have hstep := add_toplevel_success cfg disk
      (done.map (entryOf cfg.nameMax) ++ List.replicate (f' + 1) dfltEntry)
      it.1 it.2.1 it.2.2 (done.map (entryOf cfg.nameMax)).length
      h47it hdup (by rw [hlen]; exact hfree)
    have hset : (done.map (entryOf cfg.nameMax)
          ++ List.replicate (f' + 1) dfltEntry).set
          (done.map (entryOf cfg.nameMax)).length
          ⟨true, it.1.take cfg.nameMax, it.2.1, it.2.2⟩
        = (done ++ [it]).map (entryOf cfg.nameMax)
          ++ List.replicate f' dfltEntry := by
      rw [List.replicate_succ,
        set_append_len (done.map (entryOf cfg.nameMax)) dfltEntry _
          (List.replicate f' dfltEntry)]
      simp [entryOf]
    simp only [addAll, hstep, hset]
    have hih := ih (done ++ [it]) f' (by simp at hf; omega)
      (by rwa [List.append_assoc, List.singleton_append])
      (by
        intro x hx
        apply h47 x
        rw [List.append_assoc, List.singleton_append] at hx
        exact hx)
    rw [hih, List.append_assoc, List.singleton_append]
    simp [Nat.succ_sub_succ]

/-- Claim C6 amended: a successful top-level Add places the truncated entry
at the lowest free index (`firstFreeBnd` indeed returns the lowest index
whose `in_use` is false); Add returns failure when no slot is free; and a
directory of capacity M accepts M Adds whose leaf names are pairwise
distinct *in their first NAME_MAX bytes* in any order, then refuses the
(M+1)-th such Add. -/
theorem c6_capacity_first_fit (cfg : Config) (disk : Dsk) :
    (∀ (table : List DirEntry) (k : Nat),
      firstFreeBnd table.length table = some k →
      k < table.length ∧ (table.getD k oobEntry).inUse = false ∧
      ∀ j < k, (table.getD j oobEntry).inUse = true) ∧
    (∀ (table : List DirEntry) (leaf : List Nat) (s ty k : Nat),
      slashB ∉ leaf →
      findIndexAux cfg.nameMax leaf table = none →
      firstFreeBnd table.length table = some k →
      Directory.Add cfg disk table (slashB :: leaf) s ty
        = .ok true (table.set k ⟨true, leaf.take cfg.nameMax, s, ty⟩) disk) ∧
    (∀ (table : List DirEntry) (leaf : List Nat) (s ty : Nat),
      slashB ∉ leaf →
      firstFreeBnd table.length table = none →
      Directory.Add cfg disk table (slashB :: leaf) s ty
        = .ok false table disk) ∧
    (∀ (M : Nat) (items : List (List Nat × Nat × Nat)) (extra : List Nat)
      (es et : Nat),
      items.length = M →
      (items.map (fun it => it.1.take cfg.nameMax)).Nodup →
      (∀ it ∈ items, slashB ∉ it.1) →
      slashB ∉ extra →
      extra.take cfg.nameMax ∉ items.map (fun it => it.1.take cfg.nameMax) →
      addAll cfg disk (emptyTable M) items
          = some (items.map (entryOf cfg.nameMax)) ∧
      Directory.Add cfg disk (items.map (entryOf cfg.nameMax))
          (slashB :: extra) es et
        = .ok false (items.map (entryOf cfg.nameMax)) disk) := by
  refine ⟨fun table k h => firstFreeBnd_some h,
    fun table leaf s ty k h47 hdup hfree =>
      add_toplevel_success cfg disk table leaf s ty k h47 hdup hfree,
    fun table leaf s ty h47 hfull =>
      add_toplevel_full cfg disk table leaf s ty h47 hfull,
    fun M items extra es et hlen hnd h47 hx47 hxd => ?_⟩
  have hfill := addAll_fill cfg disk items [] M (by omega)
    (by simpa using hnd) (by simpa using h47)
  constructor
  · rw [show emptyTable M = ([] : List (List Nat × Nat × Nat)).map
        (entryOf cfg.nameMax) ++ List.replicate M dfltEntry by
      simp [emptyTable]]
    rw [hfill]
    simp [hlen]
  · apply add_toplevel_full cfg disk _ extra es et hx47
    apply firstFreeBnd_full
    · intro e he
      obtain ⟨d, _, rfl⟩ := List.mem_map.mp he
      rfl
    · exact Nat.le_refl _

/-- Counterexample to claim C6 as stated: with capacity M = 2, two
*distinct* ten-byte leaf names agreeing on their first nine bytes; the first
Add succeeds, slot 1 stays free, yet the second distinct Add is refused
(Directory::Add's duplicate check compares only FileNameMaxLen bytes), so
the directory does not accept M = 2 distinct Adds. -/
theorem c6_counterexample :
    (Directory.Add cfgN emptyDsk (emptyTable 2)
        [47, 97, 97, 97, 97, 97, 97, 97, 97, 97, 120] 1 70).ret
      = some true ∧
    firstFreeBnd 2
        ((Directory.Add cfgN emptyDsk (emptyTable 2)
          [47, 97, 97, 97, 97, 97, 97, 97, 97, 97, 120] 1 70).tbl [])
      = some 1 ∧
    (Directory.Add cfgN emptyDsk
        ((Directory.Add cfgN emptyDsk (emptyTable 2)
          [47, 97, 97, 97, 97, 97, 97, 97, 97, 97, 120] 1 70).tbl [])
        [47, 97, 97, 97, 97, 97, 97, 97, 97, 97, 121] 2 70).ret
      = some false ∧
    ([47, 97, 97, 97, 97, 97, 97, 97, 97, 97, 120] : List Nat)
      ≠ [47, 97, 97, 97, 97, 97, 97, 97, 97, 97, 121] := by
  decide

/-- Witness for C6's amended theorem: capacity 2 accepts the two distinct
short leaves "a" and "b" and refuses a third distinct leaf "c". -/
theorem c6_capacity_first_fit_witness :
    addAll cfgN emptyDsk (emptyTable 2) [([97], 1, 70), ([98], 2, 70)]
      = some ([([97], 1, 70), ([98], 2, 70)].map (entryOf cfgN.nameMax)) ∧
    Directory.Add cfgN emptyDsk
        ([([97], 1, 70), ([98], 2, 70)].map (entryOf cfgN.nameMax))
        (slashB :: [99]) 3 70
      = .ok false ([([97], 1, 70), ([98], 2, 70)].map (entryOf cfgN.nameMax))
          emptyDsk := by
  have h := (c6_capacity_first_fit cfgN emptyDsk).2.2.2 2
    [([97], 1, 70), ([98], 2, 70)] [99] 3 70
    (by decide) (by decide) (by decide) (by decide) (by decide)
  exact ⟨h.1, h.2⟩

end FS
